import Mathlib

/-!
Verification of the Wiener-deconvolution pipeline in `deconvolution.py`.

The development shallowly embeds the numerical core of the script: the
Wiener inverse filter (lines 121, 135-136), the kernel synthesizers
(lines 45-58), the edge conditioner `blur_edge` (lines 36-43), the kernel
normalization and padding inside `update` (lines 129-132), the spectral
transforms (`cv.dft` / `cv.idft`, modelled as the exact discrete Fourier
transform), and the final recentering rolls (lines 153-154).

Machine floats are modelled by exact arithmetic (`ℚ` where the code is
directly executable, `ℝ`/`ℂ` for the spectral parts).  External OpenCV
routines that the script calls are modelled by their documented
mathematics (the DFT, the Keys bicubic resampler of `INTER_CUBIC` with
parameter a = -3/4) or, where only their output type matters (the
`cv.circle` rasterizer, the Gaussian blur inside `blur_edge`), passed in
as explicit arguments whose type records the guarantee the caller gets.
-/

namespace Deconv

/-! ## WienerFilter: lines 121 and 135-136 of `update` -/

/-- Line 135, `PSF2 = (PSF**2).sum(-1)`: the squared magnitude of a complex
spectrum bin, the sum of the squared real and imaginary planes. -/
def PSF2 (P : ℂ) : ℝ := P.re ^ 2 + P.im ^ 2

/-- Line 136, `iPSF = PSF / (PSF2 + noise)[...,np.newaxis]`: both planes of
each bin are divided by the real scalar `PSF2 + noise`. -/
noncomputable def iPSF (P : ℂ) (noise : ℝ) : ℂ :=
  ⟨P.re / (PSF2 P + noise), P.im / (PSF2 P + noise)⟩

/-- Line 121, `noise = 10**(-0.1*cv.getTrackbarPos('SNR (db)', win))`. -/
noncomputable def noiseFromSNR (snr : ℝ) : ℝ := (10 : ℝ) ^ (-0.1 * snr)

/-- Spec wording for the Wiener inverse filter: the value at a bin is
`P / (|P|^2 + noiseLevel)`, a complex division by the real denominator
`|P|^2 + noiseLevel`, where `|P|^2` is the sum of the squared real and
imaginary parts of `P`. -/
noncomputable def wienerSpecBin (P : ℂ) (noise : ℝ) : ℂ :=
  P / ((P.re ^ 2 + P.im ^ 2 + noise : ℝ) : ℂ)

/-! ## Kernel padding target: lines 84 and 130-132 -/

/-- Shape of `psf_pad` as allocated on line 130: `np.zeros_like(roi_bw)`.
`roi_bw` is the `(x, y, w, h)` tuple returned by `cv.selectROI` (line 84),
so `np.zeros_like` of it is a one-dimensional integer array of length 4. -/
def psf_pad_shape : List Nat := [4]

/-- Shape of the conditioned image: both image buffers are resized with
`cv.resize(..., dsize=(640, 480))` on lines 75-76, and `blur_edge`
preserves dimensions, so the numpy shape is `(480, 640)` (rows, columns). -/
def conditioned_image_shape : List Nat := [480, 640]

/-- numpy basic slice assignment `a[:kh, :kw] = ...` (line 132) requires the
target array to have rank at least 2. -/
def rank2AssignOk (shape : List Nat) : Bool := decide (2 ≤ shape.length)

/-- C1: at every frequency bin the inverse filter computed on lines 135-136
equals the spec formula `P / (|P|^2 + noiseLevel)` (complex division by the
real denominator), and the noise level of line 121 equals `10^(-SNR_db/10)`. -/
theorem wiener_bin_matches_spec (P : ℂ) (noise snr : ℝ) :
    iPSF P noise = wienerSpecBin P noise ∧
    noiseFromSNR snr = (10 : ℝ) ^ (-(snr / 10)) := by
  constructor
  · rw [wienerSpecBin, Complex.div_ofReal, iPSF, PSF2, add_assoc]
  · rw [noiseFromSNR]
    congr 1
    ring

/-- C10: the regularization constant derived from any SNR slider value
`v ∈ [0, 50]` is strictly positive, hence the Wiener denominator
`|P|^2 + noise` is strictly positive at every frequency bin. -/
theorem wiener_denominator_pos (v : ℕ) (hv : v ≤ 50) (P : ℂ) :
    0 < noiseFromSNR v ∧ 0 < PSF2 P + noiseFromSNR v := by
  have hpos : 0 < noiseFromSNR (v : ℝ) := Real.rpow_pos_of_pos (by norm_num) _
  have hP : 0 ≤ PSF2 P := by
    rw [PSF2]
    positivity
  exact ⟨hpos, by linarith⟩

/-- Witness for C10 at the default slider value 25 and the bin `1 + 2i`. -/
theorem wiener_denominator_pos_witness :
    (25 : ℕ) ≤ 50 ∧
      (0 < noiseFromSNR ((25 : ℕ) : ℝ) ∧ 0 < PSF2 ⟨1, 2⟩ + noiseFromSNR ((25 : ℕ) : ℝ)) :=
  ⟨by decide, wiener_denominator_pos 25 (by decide) ⟨1, 2⟩⟩

/-- C2 (code bug): the array the kernel is copied into on line 130 is
`np.zeros_like(roi_bw)`, a rank-1 length-4 array built from the ROI tuple,
not a zero array with the conditioned image dimensions; the rank-2 slice
assignment of line 132 cannot target it. -/
theorem psf_pad_shape_mismatch :
    psf_pad_shape ≠ conditioned_image_shape ∧ rank2AssignOk psf_pad_shape = false := by
  decide

/-! ## KernelSynthesizer: lines 45-58

`motion_kernel` builds a 1 x d row of ones and maps it onto a `sz x sz`
canvas with `cv.warpAffine(..., flags=cv.INTER_CUBIC)`.  The warp is
modelled exactly: `dst(X, Y) = sample(src, Minv (X, Y))` where `Minv`
inverts the rotation-plus-translation matrix `A` of lines 48-50 and
`sample` is the Keys bicubic interpolator with parameter a = -3/4 (the
interpolation used by `INTER_CUBIC`), reading out-of-canvas source pixels
as the default border value 0.  The cosine and sine of the angle are
passed as explicit rationals `c`, `s` so the model stays in exact
arithmetic (line 47 computes them as `np.cos(angle)`, `np.sin(angle)`). -/

/-- Keys cubic convolution weight with a = -3/4, the interpolation kernel
of `cv.INTER_CUBIC`. -/
def cubicCoeff (t : ℚ) : ℚ :=
  let a : ℚ := -3 / 4
  let u := if t < 0 then -t else t
  if u ≤ 1 then ((a + 2) * u - (a + 3)) * u * u + 1
  else if u < 2 then ((a * u - 5 * a) * u + 8 * a) * u - 4 * a
  else 0

/-- Line 46, `kern = np.ones((1, d), np.float32)`, extended by the constant
zero border that `cv.warpAffine` reads outside the source: the value at
source coordinate `(xs, ys)` is 1 on the row of ones and 0 elsewhere. -/
def srcOnesRow (d : ℕ) (xs ys : ℤ) : ℚ :=
  if 0 ≤ xs ∧ xs < (d : ℤ) ∧ ys = 0 then 1 else 0

/-- Bicubic sample of a source at real coordinate `(fx, fy)`: the 4 x 4 tap
stencil around the point, weighted by `cubicCoeff` in each axis (the weight
of the tap at integer offset `k` from `⌊fx⌋ - 1` is the kernel evaluated at
the distance between `fx` and that tap). -/
def bicubicSample (f : ℤ → ℤ → ℚ) (fx fy : ℚ) : ℚ :=
  let ix := ⌊fx⌋
  let iy := ⌊fy⌋
  let dx := fx - (ix : ℚ)
  let dy := fy - (iy : ℚ)
  let row : ℤ → ℚ := fun ys =>
    cubicCoeff (dx + 1) * f (ix - 1) ys + cubicCoeff dx * f ix ys +
      cubicCoeff (1 - dx) * f (ix + 1) ys + cubicCoeff (2 - dx) * f (ix + 2) ys
  cubicCoeff (dy + 1) * row (iy - 1) + cubicCoeff dy * row iy +
    cubicCoeff (1 - dy) * row (iy + 1) + cubicCoeff (2 - dy) * row (iy + 2)

/-- Lines 45-52, `motion_kernel(angle, d, sz=65)`: the affine matrix is
`A = [[c, -s, tx], [s, c, ty]]` with `tx = sz//2 - c*(d-1)/2` and
`ty = sz//2 - s*(d-1)/2` (line 50), and each destination pixel `(X, Y)` of
the `sz x sz` canvas samples the row of ones at `A⁻¹ (X, Y)`.  The model
is meaningful for `d ≥ 1`; at `d = 0` the real `cv.warpAffine` call raises
on the empty source instead of returning (see `updateKernelStage`). -/
def motion_kernel (c s : ℚ) (d : ℕ) (sz : ℕ) : List (List ℚ) :=
  let sz2 : ℚ := ((sz / 2 : ℕ) : ℚ)
  let halfLen : ℚ := (((d : ℤ) - 1 : ℤ) : ℚ) / 2
  let tx : ℚ := sz2 - c * halfLen
  let ty : ℚ := sz2 - s * halfLen
  let det : ℚ := c * c + s * s
  (List.range sz).map fun Y : ℕ =>
    (List.range sz).map fun X : ℕ =>
      bicubicSample (srcOnesRow d)
        ((c * ((X : ℚ) - tx) + s * ((Y : ℚ) - ty)) / det)
        ((-s * ((X : ℚ) - tx) + c * ((Y : ℚ) - ty)) / det)

/-- Lines 54-58, `defocus_kernel(d, sz=65)`: the `sz x sz` uint8 canvas is
drawn by the external `cv.circle` rasterizer; `canvas` is that drawn
array (entries are uint8, i.e. `Fin 256`), and the kernel is
`np.float32(kern) / 255.0`. -/
def defocus_kernel (canvas : List (List (Fin 256))) : List (List ℚ) :=
  canvas.map (List.map fun v : Fin 256 => ((v.val : ℚ) / 255))

/-- Sum of all kernel elements, `psf.sum()` (line 129). -/
def kernelSum (K : List (List ℚ)) : ℚ := (K.map List.sum).sum

/-- Line 129, `psf /= psf.sum()`: every element is divided by the total. -/
def normalizeKernel (K : List (List ℚ)) : List (List ℚ) :=
  K.map (List.map fun x => x / kernelSum K)

/-- Error channel of the kernel stage.  `invalidParameter` is the error
kind the spec demands; the source script never produces it.
`cvAssertionFailed` is the `cv2.error` that an OpenCV `CV_Assert` raises —
the only failure the kernel stage can actually exhibit. -/
inductive UpdateError
  | invalidParameter
  | cvAssertionFailed
deriving DecidableEq

/-- Lines 118-129 of `update`: read the parameters, synthesize the kernel
for the selected model and normalize it.  This is everything `update` does
before the spectral transform of line 134.  The `Except` result type is
the error channel; the body mirrors the source, which contains no
parameter check of its own.  On the motion path with `d = 0`, line 46
builds the empty 1 x 0 source `np.ones((1, 0))` and `cv.warpAffine`
(line 51) raises `cv2.error` from its `CV_Assert(src.cols > 0 &&
src.rows > 0)` before any normalization — modelled by the
`cvAssertionFailed` branch; for `d ≥ 1` the warp succeeds.  On the defocus
path `cv.circle` accepts every radius, including 0, so that branch never
fails. -/
def updateKernelStage (defocus : Bool) (canvas : List (List (Fin 256)))
    (c s : ℚ) (d : ℕ) : Except UpdateError (List (List ℚ)) :=
  if defocus then
    Except.ok (normalizeKernel (defocus_kernel canvas))
  else if d = 0 then
    Except.error UpdateError.cvAssertionFailed
  else
    Except.ok (normalizeKernel (motion_kernel c s d 65))

/-- A 65 x 65 all-zero uint8 canvas (the state of the defocus canvas before
`cv.circle` draws anything). -/
def zeroCanvas65 : List (List (Fin 256)) := List.replicate 65 (List.replicate 65 0)

lemma getD_map_range {α : Type} (f : ℕ → α) (sz n : ℕ) (hn : n < sz) (dflt : α) :
    ((List.range sz).map f).getD n dflt = f n := by
  rw [List.getD_eq_getElem?_getD, List.getElem?_map, List.getElem?_range hn]
  rfl

/-- C3 (amended): the code performs no `InvalidParameter` validation.  No
invocation of the kernel stage can fail with `InvalidParameter`; a
diameter of 0 on the motion path does fail before the spectral transform,
but with the `cv2.error` assertion that `cv.warpAffine` raises on the
empty 1 x 0 kernel source, while on the defocus path a diameter of 0 is
not rejected at all. -/
theorem update_never_invalid_parameter (defocus : Bool)
    (canvas : List (List (Fin 256))) (c s : ℚ) (d : ℕ) :
    updateKernelStage defocus canvas c s d ≠ Except.error UpdateError.invalidParameter ∧
    updateKernelStage false canvas c s 0 = Except.error UpdateError.cvAssertionFailed ∧
    (updateKernelStage true canvas c s 0).isOk = true := by
  refine ⟨?_, rfl, rfl⟩
  cases defocus with
  | false =>
    by_cases hd : d = 0
    · subst hd
      simp [updateKernelStage]
    · simp [updateKernelStage, hd]
  | true => simp [updateKernelStage]

/-- C3 counterexample: with diameter 0 and concrete remaining parameters,
the motion path fails with the library assertion error — not with
`InvalidParameter` — and the defocus path does not fail at all, so neither
model rejects the input with `InvalidParameter` as the claim states. -/
theorem update_zero_diameter_no_invalid_parameter :
    updateKernelStage false zeroCanvas65 1 0 0 = Except.error UpdateError.cvAssertionFailed ∧
    updateKernelStage true zeroCanvas65 1 0 0 ≠ Except.error UpdateError.invalidParameter ∧
    updateKernelStage false zeroCanvas65 1 0 0 ≠ Except.error UpdateError.invalidParameter := by
  refine ⟨rfl, ?_, ?_⟩ <;> simp [updateKernelStage]

lemma sum_map_div (l : List ℚ) (c : ℚ) : (l.map fun x => x / c).sum = l.sum / c := by
  induction l with
  | nil => simp
  | cons a t ih => simp [ih, add_div]

lemma kernelSum_normalize (K : List (List ℚ)) :
    kernelSum (normalizeKernel K) = kernelSum K / kernelSum K := by
  rw [normalizeKernel, kernelSum, List.map_map]
  rw [show (List.sum ∘ fun row : List ℚ => row.map fun x => x / kernelSum K) =
      (fun x : ℚ => x / kernelSum K) ∘ List.sum from funext fun row => sum_map_div row _]
  rw [← List.map_map, sum_map_div, kernelSum]

/-- C5: after the normalization of line 129 the kernel elements sum to 1
(exactly, in real arithmetic, hence within the 1e-6 tolerance), for every
kernel whose pre-normalization mass is nonzero — which is what a valid
diameter produces for both the Motion and the Defocus model. -/
theorem normalized_kernel_sums_to_one (K : List (List ℚ)) (h : kernelSum K ≠ 0) :
    |kernelSum (normalizeKernel K) - 1| ≤ 1 / 1000000 := by
  rw [kernelSum_normalize, div_self h]
  norm_num

/-- Witness for C5 on a concrete kernel of nonzero mass. -/
theorem normalized_kernel_sums_to_one_witness :
    kernelSum [[(1 : ℚ), 3]] ≠ 0 ∧
      |kernelSum (normalizeKernel [[(1 : ℚ), 3]]) - 1| ≤ 1 / 1000000 := by
  have h : kernelSum [[(1 : ℚ), 3]] ≠ 0 := by norm_num [kernelSum]
  exact ⟨h, normalized_kernel_sums_to_one _ h⟩

lemma motion_kernel_entry (c s : ℚ) (d sz Y X : ℕ) (hY : Y < sz) (hX : X < sz) :
    ((motion_kernel c s d sz).getD Y []).getD X 0 =
      bicubicSample (srcOnesRow d)
        ((c * ((X : ℚ) - (((sz / 2 : ℕ) : ℚ) - c * ((((d : ℤ) - 1 : ℤ) : ℚ) / 2))) +
            s * ((Y : ℚ) - (((sz / 2 : ℕ) : ℚ) - s * ((((d : ℤ) - 1 : ℤ) : ℚ) / 2)))) /
          (c * c + s * s))
        ((-s * ((X : ℚ) - (((sz / 2 : ℕ) : ℚ) - c * ((((d : ℤ) - 1 : ℤ) : ℚ) / 2))) +
            c * ((Y : ℚ) - (((sz / 2 : ℕ) : ℚ) - s * ((((d : ℤ) - 1 : ℤ) : ℚ) / 2)))) /
          (c * c + s * s)) := by
  simp only [motion_kernel]
  rw [getD_map_range _ _ _ hY, getD_map_range _ _ _ hX]

/-- Bicubic interpolation of the row of 4 ones at source coordinate
`(9/2, 0)` — half a pixel beyond the end of the row — overshoots below
zero: the negative lobe of the Keys kernel at distance 3/2 hits the last
one of the row. -/
lemma bicubic_overshoot_neg : bicubicSample (srcOnesRow 4) (9 / 2) 0 = -3 / 32 := by
  have hfl : ⌊(9 / 2 : ℚ)⌋ = 4 := by
    rw [Int.floor_eq_iff]
    constructor <;> norm_num
  have hfl0 : ⌊(0 : ℚ)⌋ = 0 := Int.floor_zero
  simp only [bicubicSample, hfl, hfl0]
  norm_num [srcOnesRow, cubicCoeff]

/-- C7 counterexample: the motion kernel at angle 0 (cos = 1, sin = 0) and
diameter 4 has the strictly negative element `-3/32` at row 32, column 35
— the cubic overshoot of `INTER_CUBIC` resampling — so the synthesized
Motion kernel is not a non-negative array. -/
theorem motion_kernel_has_negative_entry :
    ((motion_kernel 1 0 4 65).getD 32 []).getD 35 0 = -3 / 32 ∧ (-3 / 32 : ℚ) < 0 := by
  refine ⟨?_, by norm_num⟩
  rw [motion_kernel_entry 1 0 4 65 32 35 (by omega) (by omega)]
  convert bicubic_overshoot_neg using 2 <;> norm_num

/-- C7 (amended): both synthesized kernels are square 2D arrays of side
length `sz` (65 in `update`), and the Defocus kernel has only non-negative
elements; the Motion kernel, however, can contain small negative elements
(see the counterexample), because cubic resampling overshoots. -/
theorem kernel_shapes_and_defocus_nonneg (c s : ℚ) (d sz : ℕ)
    (canvas : List (List (Fin 256)))
    (hc : canvas.length = sz) (hr : ∀ r ∈ canvas, r.length = sz) :
    (motion_kernel c s d sz).length = sz ∧
    (∀ row ∈ motion_kernel c s d sz, row.length = sz) ∧
    (defocus_kernel canvas).length = sz ∧
    (∀ row ∈ defocus_kernel canvas, row.length = sz) ∧
    (∀ row ∈ defocus_kernel canvas, ∀ v ∈ row, 0 ≤ v) := by
  refine ⟨by simp [motion_kernel], fun row h => ?_, by simp [defocus_kernel, hc],
    fun row h => ?_, fun row h v hv => ?_⟩
  · simp only [motion_kernel, List.mem_map] at h
    obtain ⟨Y, hY, rfl⟩ := h
    simp
  · rw [defocus_kernel, List.mem_map] at h
    obtain ⟨r, hrm, rfl⟩ := h
    simp [hr r hrm]
  · rw [defocus_kernel, List.mem_map] at h
    obtain ⟨r, hrm, rfl⟩ := h
    rw [List.mem_map] at hv
    obtain ⟨u, hu, rfl⟩ := hv
    positivity

/-- Witness for the amended C7 at the all-zero canvas and concrete
parameters. -/
theorem kernel_shapes_and_defocus_nonneg_witness :
    (zeroCanvas65.length = 65 ∧ ∀ r ∈ zeroCanvas65, r.length = 65) ∧
      ((motion_kernel 1 0 22 65).length = 65 ∧
      (∀ row ∈ motion_kernel 1 0 22 65, row.length = 65) ∧
      (defocus_kernel zeroCanvas65).length = 65 ∧
      (∀ row ∈ defocus_kernel zeroCanvas65, row.length = 65) ∧
      (∀ row ∈ defocus_kernel zeroCanvas65, ∀ v ∈ row, 0 ≤ v)) := by
  have hc : zeroCanvas65.length = 65 := by simp [zeroCanvas65]
  have hr : ∀ r ∈ zeroCanvas65, r.length = 65 := by
    intro r h
    simp only [zeroCanvas65] at h
    rw [List.eq_of_mem_replicate h]
    simp
  exact ⟨⟨hc, hr⟩, kernel_shapes_and_defocus_nonneg 1 0 22 65 zeroCanvas65 hc hr⟩

/-! ## EdgeConditioner: lines 36-43, and its call on line 105 -/

/-- Line 41, `dist = np.dstack([x, w-x-1, y, h-y-1]).min(-1)`: the least
distance from pixel `(y, x)` to the four image edges. -/
def edgeDist {h w : ℕ} (y : Fin h) (x : Fin w) : ℕ :=
  min (min x.val (w - x.val - 1)) (min y.val (h - y.val - 1))

/-- Lines 36-43, `blur_edge(img, d=31)`.  The Gaussian blur of the
wrap-padded image (lines 38-39, external `cv` routines) enters as the
`blurred` argument; lines 40-43 blend the original with it using the
weight `min(dist/d, 1)`. -/
def blur_edge {h w : ℕ} (img blurred : Fin h → Fin w → ℚ) (d : ℕ) :
    Fin h → Fin w → ℚ :=
  fun y x =>
    let wgt : ℚ := min ((edgeDist y x : ℚ) / (d : ℚ)) 1
    img y x * wgt + blurred y x * (1 - wgt)

/-- Spec wording for the blend weight: `w = min(dist / p, 1.0)`. -/
def specWeight (dist p : ℕ) : ℚ := min ((dist : ℚ) / (p : ℚ)) 1

/-- Default pad width of `blur_edge` (line 36: `d=31`). -/
def blur_edge_default_d : ℕ := 31

/-- Line 105: `img_bw = blur_edge(img_bw)` — the pipeline conditions the
image with no `d` argument, so with the default pad width 31. -/
def main_conditioned {h w : ℕ} (img blurred : Fin h → Fin w → ℚ) :
    Fin h → Fin w → ℚ :=
  blur_edge img blurred blur_edge_default_d

/-- Default of the `d` trackbar (line 163): the configured blur diameter
when no `--d` flag is given. -/
def default_diameter : ℕ := 22

/-- C4: the edge conditioner returns an image of the same dimensions (the
type says so) in which every pixel is the blend
`original*w + blurred*(1-w)` with `w = min(dist/p, 1)`, and every pixel at
distance at least `p` from all borders is returned unchanged. -/
theorem blur_edge_blend {h w : ℕ} (img blurred : Fin h → Fin w → ℚ) (p : ℕ)
    (hp : 0 < p) (y : Fin h) (x : Fin w) :
    blur_edge img blurred p y x =
      img y x * specWeight (edgeDist y x) p +
        blurred y x * (1 - specWeight (edgeDist y x) p) ∧
    (p ≤ edgeDist y x → blur_edge img blurred p y x = img y x) := by
  refine ⟨rfl, fun hd => ?_⟩
  have hp' : (0 : ℚ) < (p : ℚ) := by exact_mod_cast hp
  have h1 : min ((edgeDist y x : ℚ) / (p : ℚ)) 1 = 1 :=
    min_eq_right ((one_le_div hp').mpr (by exact_mod_cast hd))
  simp only [blur_edge, h1]
  ring

/-- Concrete 3 x 3 constant test images and an interior pixel. -/
def imgFive : Fin 3 → Fin 3 → ℚ := fun _ _ => 5

/-- Companion constant image for the C4 witness. -/
def imgSeven : Fin 3 → Fin 3 → ℚ := fun _ _ => 7

/-- The center pixel of a 3 x 3 image. -/
def pixCenter : Fin 3 := ⟨1, by omega⟩

/-- Witness for C4 at pad width 1 and the center pixel. -/
theorem blur_edge_blend_witness :
    0 < 1 ∧
      (blur_edge imgFive imgSeven 1 pixCenter pixCenter =
        imgFive pixCenter pixCenter * specWeight (edgeDist pixCenter pixCenter) 1 +
          imgSeven pixCenter pixCenter *
            (1 - specWeight (edgeDist pixCenter pixCenter) 1) ∧
      (1 ≤ edgeDist pixCenter pixCenter →
        blur_edge imgFive imgSeven 1 pixCenter pixCenter = imgFive pixCenter pixCenter)) :=
  ⟨Nat.one_pos, blur_edge_blend imgFive imgSeven 1 Nat.one_pos pixCenter pixCenter⟩

/-- A constant-one 47 x 47 image. -/
def onesImg47 : Fin 47 → Fin 47 → ℚ := fun _ _ => 1

/-- A constant-zero 47 x 47 image (standing for the blurred companion). -/
def zerosImg47 : Fin 47 → Fin 47 → ℚ := fun _ _ => 0

/-- The pixel at row 23, column 23 of a 47 x 47 image. -/
def pix23 : Fin 47 := ⟨23, by omega⟩

/-- C6 counterexample: conditioning as `main` does (pad width 31, the
`blur_edge` default) differs from conditioning with the configured blur
diameter (default 22) on a concrete image: the pixel at distance 23 from
the border is blended under pad width 31 but untouched under pad width
22. -/
theorem main_condition_ignores_diameter :
    main_conditioned onesImg47 zerosImg47 pix23 pix23 ≠
      blur_edge onesImg47 zerosImg47 default_diameter pix23 pix23 := by
  have hdist : edgeDist pix23 pix23 = 23 := by decide
  simp only [main_conditioned, blur_edge, blur_edge_default_d, default_diameter,
    onesImg47, zerosImg47, hdist]
  norm_num [min_def]

/-- C6 (amended): the pipeline conditions the image with the fixed default
pad width 31 of `blur_edge`, not with the configured blur diameter (whose
default is 22): line 105 passes no `d` argument. -/
theorem main_condition_uses_default_padwidth {h w : ℕ}
    (img blurred : Fin h → Fin w → ℚ) :
    main_conditioned img blurred = blur_edge img blurred 31 ∧
      blur_edge_default_d ≠ default_diameter :=
  ⟨rfl, by decide⟩

/-! ## RestorationPipeline recentering: lines 153-154 -/

/-- Index arithmetic of `np.roll` along one axis: element `i` of the output
is element `(i - s) mod n` of the input. -/
def rollIdx {n : ℕ} (i : Fin n) (s : ℤ) : Fin n :=
  ⟨(((i : ℤ) - s) % (n : ℤ)).toNat, by
    have h1 : 0 ≤ ((i : ℤ) - s) % (n : ℤ) :=
      Int.emod_nonneg _ (by exact_mod_cast Nat.pos_iff_ne_zero.mp i.pos)
    have h2 : ((i : ℤ) - s) % (n : ℤ) < (n : ℤ) :=
      Int.emod_lt_of_pos _ (by exact_mod_cast i.pos)
    omega⟩

/-- `np.roll(a, s, 0)` (axis 0, rows). -/
def np_roll_rows {h w : ℕ} (A : Fin h → Fin w → ℚ) (s : ℤ) : Fin h → Fin w → ℚ :=
  fun i j => A (rollIdx i s) j

/-- `np.roll(a, s, 1)` (axis 1, columns). -/
def np_roll_cols {h w : ℕ} (A : Fin h → Fin w → ℚ) (s : ℤ) : Fin h → Fin w → ℚ :=
  fun i j => A i (rollIdx j s)

/-- Lines 153-154: `res_bw = np.roll(res_bw, -kh//2, 0)` then
`np.roll(res_bw, -kw//2, 1)`.  Python `//` is floor division, `Int.fdiv`. -/
def recenter {h w : ℕ} (res : Fin h → Fin w → ℚ) (kh kw : ℕ) : Fin h → Fin w → ℚ :=
  np_roll_cols (np_roll_rows res (Int.fdiv (-(kh : ℤ)) 2)) (Int.fdiv (-(kw : ℤ)) 2)

/-- Spec wording: a single cyclic shift of the 2D array by `r` rows and
`c` columns. -/
def cyclicShift {h w : ℕ} (A : Fin h → Fin w → ℚ) (r c : ℤ) : Fin h → Fin w → ℚ :=
  fun i j => A (rollIdx i r) (rollIdx j c)

lemma rollIdx_neg_half {n : ℕ} (i : Fin n) (k : ℕ) :
    rollIdx i (Int.fdiv (-(k : ℤ)) 2) = ⟨(i.val + (k + 1) / 2) % n, Nat.mod_lt _ i.pos⟩ := by
  apply Fin.ext
  have hfd : Int.fdiv (-(k : ℤ)) 2 = -(((k + 1) / 2 : ℕ) : ℤ) := by
    rw [Int.fdiv_eq_ediv _ (by norm_num)]
    omega
  simp only [rollIdx, hfd]
  rw [show ((i : ℤ) - -(((k + 1) / 2 : ℕ) : ℤ)) = ((i.val + (k + 1) / 2 : ℕ) : ℤ) by
    push_cast
    ring]
  rw [← Int.natCast_mod, Int.toNat_natCast]

/-- C8: the two successive rolls of lines 153-154 are exactly the single
cyclic shift by `-kh//2` rows and `-kw//2` columns (floor division, the
integer division of the source language); equivalently, output pixel
`(i, j)` is input pixel `((i + ceil(kh/2)) mod h, (j + ceil(kw/2)) mod w)`,
which moves the result up and left by half the kernel extent. -/
theorem recenter_is_half_kernel_shift {h w : ℕ} (res : Fin h → Fin w → ℚ)
    (kh kw : ℕ) (i : Fin h) (j : Fin w) :
    recenter res kh kw = cyclicShift res (Int.fdiv (-(kh : ℤ)) 2) (Int.fdiv (-(kw : ℤ)) 2) ∧
    recenter res kh kw i j =
      res ⟨(i.val + (kh + 1) / 2) % h, Nat.mod_lt _ i.pos⟩
        ⟨(j.val + (kw + 1) / 2) % w, Nat.mod_lt _ j.pos⟩ := by
  refine ⟨rfl, ?_⟩
  show res (rollIdx i (Int.fdiv (-(kh : ℤ)) 2)) (rollIdx j (Int.fdiv (-(kw : ℤ)) 2)) = _
  rw [rollIdx_neg_half, rollIdx_neg_half]

/-! ## SpectralTransform: `cv.dft` (lines 110, 134) and `cv.idft` (line 143)

`cv.dft(x, flags=cv.DFT_COMPLEX_OUTPUT)` computes the full complex 2D
discrete Fourier transform `X(u,v) = ∑ x(a,b) e^(-2πi(au/H + bv/W))` of a
real `H x W` array, for arbitrary (mixed-radix) dimensions, and
`cv.idft(X, flags=cv.DFT_SCALE | cv.DFT_REAL_OUTPUT)` its inverse scaled
by `1/(HW)` restricted to the real plane.  The twiddle factor
`e^(2πi j/N)` is `ZMod.stdAddChar j`; indices live in `ZMod` so the
periodicity of the transform indices is carried by the index type. -/

/-- Forward full-size complex 2D DFT. -/
noncomputable def dft2 {H W : ℕ} [NeZero H] [NeZero W]
    (x : ZMod H → ZMod W → ℂ) (u : ZMod H) (v : ZMod W) : ℂ :=
  ∑ p : ZMod H, ∑ q : ZMod W,
    ZMod.stdAddChar (-(p * u)) * (ZMod.stdAddChar (-(q * v)) * x p q)

/-- Scaled inverse 2D DFT restricted to the real component
(`cv.DFT_SCALE | cv.DFT_REAL_OUTPUT`). -/
noncomputable def idft2re {H W : ℕ} [NeZero H] [NeZero W]
    (X : ZMod H → ZMod W → ℂ) (a : ZMod H) (b : ZMod W) : ℝ :=
  (((H : ℂ) * (W : ℂ))⁻¹ *
    ∑ u : ZMod H, ∑ v : ZMod W,
      ZMod.stdAddChar (u * a) * (ZMod.stdAddChar (v * b) * X u v)).re

lemma dft_apply_mul {N : ℕ} [NeZero N] (φ : ZMod N → ℂ) (k : ZMod N) :
    ZMod.dft φ k = ∑ j : ZMod N, ZMod.stdAddChar (-(j * k)) * φ j := by
  rw [ZMod.dft_apply]
  simp only [smul_eq_mul]

lemma sum_char_mul_dft {N : ℕ} [NeZero N] (φ : ZMod N → ℂ) (b : ZMod N) :
    ∑ j : ZMod N, ZMod.stdAddChar (j * b) * ZMod.dft φ j = (N : ℂ) * φ b := by
  have hN : (N : ℂ) ≠ 0 := Nat.cast_ne_zero.mpr (NeZero.ne N)
  have h5 := ZMod.invDFT_apply (ZMod.dft φ) b
  rw [LinearEquiv.symm_apply_apply] at h5
  rw [h5, smul_eq_mul, ← mul_assoc, mul_inv_cancel₀ hN, one_mul]
  simp only [smul_eq_mul]

/-- C9: the scaled inverse transform of the forward transform returns the
original real image exactly (in exact arithmetic, hence within every
floating-point tolerance), for all dimensions `H`, `W` — power of two or
not — reading the output from the real component. -/
theorem dft2_roundtrip {H W : ℕ} [NeZero H] [NeZero W]
    (x : ZMod H → ZMod W → ℝ) (a : ZMod H) (b : ZMod W) :
    idft2re (dft2 fun p q => ((x p q : ℝ) : ℂ)) a b = x a b := by
  have hH : (H : ℂ) ≠ 0 := Nat.cast_ne_zero.mpr (NeZero.ne H)
  have hW : (W : ℂ) ≠ 0 := Nat.cast_ne_zero.mpr (NeZero.ne W)
  have hfwd : ∀ (u : ZMod H) (v : ZMod W),
      dft2 (fun p q => ((x p q : ℝ) : ℂ)) u v =
        ∑ p : ZMod H, ZMod.stdAddChar (-(p * u)) *
          ZMod.dft (fun q => ((x p q : ℝ) : ℂ)) v := by
    intro u v
    rw [dft2]
    refine Finset.sum_congr rfl fun p _ => ?_
    rw [dft_apply_mul, Finset.mul_sum]
  have hcol : ∀ u : ZMod H,
      ∑ v : ZMod W, ZMod.stdAddChar (v * b) * dft2 (fun p q => ((x p q : ℝ) : ℂ)) u v =
        (W : ℂ) * ZMod.dft (fun p => ((x p b : ℝ) : ℂ)) u := by
    intro u
    calc ∑ v : ZMod W, ZMod.stdAddChar (v * b) * dft2 (fun p q => ((x p q : ℝ) : ℂ)) u v
        = ∑ v : ZMod W, ∑ p : ZMod H, ZMod.stdAddChar (-(p * u)) *
            (ZMod.stdAddChar (v * b) * ZMod.dft (fun q => ((x p q : ℝ) : ℂ)) v) := by
          refine Finset.sum_congr rfl fun v _ => ?_
          rw [hfwd, Finset.mul_sum]
          exact Finset.sum_congr rfl fun p _ => by ring
      _ = ∑ p : ZMod H, ZMod.stdAddChar (-(p * u)) *
            ∑ v : ZMod W, ZMod.stdAddChar (v * b) * ZMod.dft (fun q => ((x p q : ℝ) : ℂ)) v := by
          rw [Finset.sum_comm]
          exact Finset.sum_congr rfl fun p _ => (Finset.mul_sum _ _ _).symm
      _ = ∑ p : ZMod H, ZMod.stdAddChar (-(p * u)) * ((W : ℂ) * ((x p b : ℝ) : ℂ)) :=
          Finset.sum_congr rfl fun p _ => by rw [sum_char_mul_dft]
      _ = (W : ℂ) * ∑ p : ZMod H, ZMod.stdAddChar (-(p * u)) * ((x p b : ℝ) : ℂ) := by
          rw [Finset.mul_sum]
          exact Finset.sum_congr rfl fun p _ => by ring
      _ = (W : ℂ) * ZMod.dft (fun p => ((x p b : ℝ) : ℂ)) u := by rw [dft_apply_mul]
  rw [idft2re]
  have hS : ∑ u : ZMod H, ∑ v : ZMod W, ZMod.stdAddChar (u * a) *
      (ZMod.stdAddChar (v * b) * dft2 (fun p q => ((x p q : ℝ) : ℂ)) u v) =
      (W : ℂ) * ((H : ℂ) * ((x a b : ℝ) : ℂ)) := by
    calc ∑ u : ZMod H, ∑ v : ZMod W, ZMod.stdAddChar (u * a) *
          (ZMod.stdAddChar (v * b) * dft2 (fun p q => ((x p q : ℝ) : ℂ)) u v)
        = ∑ u : ZMod H, ZMod.stdAddChar (u * a) *
            ∑ v : ZMod W, ZMod.stdAddChar (v * b) * dft2 (fun p q => ((x p q : ℝ) : ℂ)) u v :=
          Finset.sum_congr rfl fun u _ => (Finset.mul_sum _ _ _).symm
      _ = ∑ u : ZMod H, ZMod.stdAddChar (u * a) *
            ((W : ℂ) * ZMod.dft (fun p => ((x p b : ℝ) : ℂ)) u) :=
          Finset.sum_congr rfl fun u _ => by rw [hcol]
      _ = (W : ℂ) * ∑ u : ZMod H, ZMod.stdAddChar (u * a) *
            ZMod.dft (fun p => ((x p b : ℝ) : ℂ)) u := by
          rw [Finset.mul_sum]
          exact Finset.sum_congr rfl fun u _ => by ring
      _ = (W : ℂ) * ((H : ℂ) * ((x a b : ℝ) : ℂ)) := by rw [sum_char_mul_dft]
  rw [hS]
  rw [show ((H : ℂ) * (W : ℂ))⁻¹ * ((W : ℂ) * ((H : ℂ) * ((x a b : ℝ) : ℂ))) =
      ((x a b : ℝ) : ℂ) by
    field_simp
    ring]
  exact Complex.ofReal_re _

/-- A concrete 2 x 3 real test image. -/
noncomputable def sampleImg : ZMod 2 → ZMod 3 → ℝ :=
  fun p q => if p = 0 ∧ q = 1 then 5 else 2

/-- Witness for C9 at non-power-of-two dimensions 2 x 3. -/
theorem dft2_roundtrip_witness :
    idft2re (dft2 fun p q => ((sampleImg p q : ℝ) : ℂ)) 0 1 = sampleImg 0 1 :=
  dft2_roundtrip sampleImg 0 1

end Deconv
